import Mathlib

/-!
Shallow embedding of `src/btree.py`, a generator of dot-language diagrams
for B+ trees with possibly omitted subtrees, together with proofs about
the claims of the specification.

Conventions of the embedding:
* Python tuples of child numbers (tree indices) become `List Nat`,
  with children appended at the end (`index + (i,)` becomes `index ++ [i]`).
* The insertion-ordered dictionary `_indexed_blocks` becomes an
  association list `List (Addr × Option Keys)`; a stored value `None`
  (possible for a null entry in a children list) is `Option.none`.
* Python code that can raise is modelled with `Option`/`Except`:
  a `none`/`Except.error` result stands for a raised exception.
-/

/-- Tree index (Python: a tuple of child numbers). The root is `[]`. -/
abbrev Addr : Type := List Nat

/-- Keys of one block (arbitrary printable content, kept as strings). -/
abbrev Keys : Type := List String

/-- Python `BPlusTree` object state: `keys_per_block` and the
insertion-ordered mapping `_indexed_blocks` from index to keys. -/
structure BPlusTree where
  keys_per_block : Nat
  indexed_blocks : List (Addr × Option Keys)
deriving DecidableEq, Repr

/-- Python property `children_per_block` (`keys_per_block + 1`). -/
def BPlusTree.children_per_block (t : BPlusTree) : Nat :=
  t.keys_per_block + 1

/-- Python property `root_index` (the empty tuple). -/
def BPlusTree.root_index (_t : BPlusTree) : Addr := []

/-- Python property `all_blocks`: the stored `(index, keys)` pairs in
insertion order. -/
def BPlusTree.all_blocks (t : BPlusTree) : List (Addr × Option Keys) :=
  t.indexed_blocks

/-- Python `_is_valid_child_num`: `0 <= num < children_per_block`
(child numbers are `Nat`, so only the upper bound remains). -/
def BPlusTree.is_valid_child_num (t : BPlusTree) (num : Nat) : Bool :=
  num < t.children_per_block

/-- Python `_is_valid_index`: every component is a valid child number. -/
def BPlusTree.is_valid_index (t : BPlusTree) (index : Addr) : Bool :=
  index.all (fun i => t.is_valid_child_num i)

/-- Value of `self._indexed_blocks.get(index, None)`: the stored keys at
an index, where both an absent entry and a stored `None` give `none`.
This is the raise-free core of `__getitem__`. -/
def BPlusTree.blockKeys (t : BPlusTree) (index : Addr) : Option Keys :=
  match t.indexed_blocks.lookup index with
  | some v => v
  | none => none

/-- Python `__getitem__`: raises `IndexError` (modelled as the outer
`none`) on an invalid index, otherwise returns the stored keys. -/
def BPlusTree.getItem (t : BPlusTree) (index : Addr) : Option (Option Keys) :=
  if t.is_valid_index index then some (t.blockKeys index) else none

/-- Python `nth_child`: raises `IndexError` (`Except.error`) for an
out-of-range child number, otherwise appends it to the parent index. -/
def BPlusTree.nth_child (t : BPlusTree) (parent_index : Addr) (child_num : Nat) :
    Except String Addr :=
  if t.is_valid_child_num child_num then .ok (parent_index ++ [child_num])
  else .error ("Out of range child number")

/-- Python `children`: the `children_per_block` child indices in order.
Every generated child number lies in `range children_per_block`, so the
range check of `nth_child` always succeeds here. -/
def BPlusTree.children (t : BPlusTree) (index : Addr) : List Addr :=
  (List.range t.children_per_block).map (fun i => index ++ [i])

/-- Python `child_num`: `None` for the root, else the last component. -/
def BPlusTree.child_num (t : BPlusTree) (index : Addr) : Option Nat :=
  if index = t.root_index then none else index.getLast?

/-- Python `parent`: `None` for the root, else the index without its
last component. -/
def BPlusTree.parent (t : BPlusTree) (index : Addr) : Option Addr :=
  if index = t.root_index then none else some index.dropLast

/-- Python `right_sibling`: the index immediately to the right on the
same level, `none` when no such block exists. -/
def BPlusTree.right_sibling (t : BPlusTree) (index : Addr) : Option Addr :=
  if h : index = [] then none
  else
    let cn := index.getLast h
    if cn < t.children_per_block - 1 then
      some (index.dropLast ++ [cn + 1])
    else
      match t.right_sibling index.dropLast with
      | none => none
      | some parent_sibling => some (parent_sibling ++ [0])
termination_by index.length
decreasing_by
  simp only [List.length_dropLast]
  have : 0 < index.length := List.length_pos.mpr h
  omega

/-- Python `was_omitted`: whether a block should have been included.
Result `none` models a raised exception: on the root the code computes
`self[None]` (a `TypeError`), and an invalid parent index would raise
`IndexError` in `__getitem__`. The Python test `if parent_keys:` is
truthiness: a stored `None` and an empty key list both fail it. -/
def BPlusTree.was_omitted (t : BPlusTree) (index : Addr) : Option Bool :=
  if h : index = [] then none
  else
    match t.getItem index.dropLast with
    | none => none
    | some parent_keys =>
      match parent_keys with
      | some ks =>
        if ks.isEmpty then t.was_omitted index.dropLast
        else some (decide (index.getLast h ≤ ks.length))
      | none => t.was_omitted index.dropLast
termination_by index.length
decreasing_by
  all_goals
    simp only [List.length_dropLast]
    have : 0 < index.length := List.length_pos.mpr h
    omega

/-- Input shape of one block description, as the YAML loader hands it to
`BPlusTree._add_block`: either a non-dict entry (a bare key list, or a
null), or a dict with an optional `keys` field (whose value may itself
be null) and an optional ordered `children` list. -/
inductive Desc where
  | bare (keys : Option Keys)
  | node (keysField : Option (Option Keys)) (children : Option (List Desc))

mutual
/-- Python `_add_block`: normalizes a non-dict entry to a dict with only
a `keys` field, stores the value of `keys` (raising `KeyError` when the
field is absent), then recurses into the children in order. The result
is the list of stored `(index, keys)` pairs in insertion order. -/
def BPlusTree.add_block (cpb : Nat) (index : Addr) (d : Desc) :
    Except String (List (Addr × Option Keys)) :=
  match d with
  | .bare keys => .ok [(index, keys)]
  | .node none _ => .error ("KeyError: keys")
  | .node (some keys) children => do
      let rest ← BPlusTree.add_children cpb index 0 (children.getD [])
      .ok ((index, keys) :: rest)
termination_by sizeOf d
decreasing_by cases children <;> simp <;> omega

/-- The `for i, child_tree in enumerate(children)` loop of `_add_block`:
each iteration first computes `nth_child` (raising `IndexError` for a
child number outside `range cpb`) and then recurses into the child. -/
def BPlusTree.add_children (cpb : Nat) (index : Addr) (i : Nat) (cs : List Desc) :
    Except String (List (Addr × Option Keys)) :=
  match cs with
  | [] => .ok []
  | c :: rest => do
      if i < cpb then
        let blocks ← BPlusTree.add_block cpb (index ++ [i]) c
        let more ← BPlusTree.add_children cpb index (i + 1) rest
        .ok (blocks ++ more)
      else .error ("Out of range child number")
termination_by sizeOf cs
decreasing_by all_goals simp <;> omega
end

/-- Python truthiness of the `tree` argument in `BPlusTree.__init__`:
`None`, a bare empty key list, a bare null, and an empty dict are all
falsy; a dict with at least one field present is truthy. -/
def descTruthy : Option Desc → Bool
  | none => false
  | some (.bare none) => false
  | some (.bare (some ks)) => !ks.isEmpty
  | some (.node keysField children) => keysField.isSome || children.isSome

/-- Python `BPlusTree.__init__`: stores `keys_per_block` and, when the
description is truthy, populates the block mapping via `_add_block`. -/
def BPlusTree.init (keys_per_block : Nat) (tree : Option Desc) :
    Except String BPlusTree :=
  if descTruthy tree then
    match tree with
    | some d => do
        let blocks ← BPlusTree.add_block (keys_per_block + 1) [] d
        .ok ⟨keys_per_block, blocks⟩
    | none => .ok ⟨keys_per_block, []⟩
  else .ok ⟨keys_per_block, []⟩

mutual
/-- An input description contains a block entry that is a structure
without a `keys` field (the malformed-input case of the specification). -/
def hasMalformed : Desc → Bool
  | .bare _ => false
  | .node none _ => true
  | .node (some _) children => hasMalformedList (children.getD [])
termination_by d => sizeOf d
decreasing_by cases children <;> simp <;> omega

/-- List version of `hasMalformed` over a children list. -/
def hasMalformedList : List Desc → Bool
  | [] => false
  | c :: rest => hasMalformed c || hasMalformedList rest
termination_by cs => sizeOf cs
decreasing_by all_goals simp <;> omega
end

/-- Python constant `DUMMY_KEY`, the placeholder for padded key cells. -/
def DUMMY_KEY : String := "_"

/-- Python `CONNECTOR_TEMPLATE` applied to a connector number. -/
def CONNECTOR_TEMPLATE (number : Nat) : String :=
  "<td port=\"connector" ++ toString number ++ "\"></td>"

/-- Python `CONNECTOR_NAME_TEMPLATE` applied to a connector number. -/
def CONNECTOR_NAME_TEMPLATE (number : Nat) : String :=
  "connector" ++ toString number

/-- Python `KEY_TEMPLATE` applied to a key number and its content. -/
def KEY_TEMPLATE (number : Nat) (content : String) : String :=
  "<td port=\"key" ++ toString number ++ "\">" ++ content ++ "</td>"

/-- Python `KEY_NAME_TEMPLATE` applied to a key number. -/
def KEY_NAME_TEMPLATE (number : Nat) : String :=
  "key" ++ toString number

/-- Python `PARENT_CHILD_EDGE_TEMPLATE` applied to its four fields. -/
def PARENT_CHILD_EDGE_TEMPLATE (src_node src_port dst_node dst_port : String) : String :=
  "\"" ++ src_node ++ "\":\"" ++ src_port ++ "\" -> \"" ++ dst_node ++
    "\":\"" ++ dst_port ++ "\""

/-- Python `LEAF_CROSS_EDGE_TEMPLATE` applied to its four fields. -/
def LEAF_CROSS_EDGE_TEMPLATE (src_node src_port dst_node dst_port : String) : String :=
  PARENT_CHILD_EDGE_TEMPLATE src_node src_port dst_node dst_port ++
    " [constraint=false]"

/-- Python `NODE_TEMPLATE` applied to a node name and its cell text. -/
def NODE_TEMPLATE (name cells : String) : String :=
  "\"" ++ name ++ "\"\n[\n    shape = none\n    label = <<table border=\"1\" cellborder=\"0\" cellspacing=\"0\">\n                <tr>\n" ++
    cells ++ "\n                </tr>\n            </table>>\n]"

/-- Python `GRAPH_TEMPLATE` applied to the three document fragments. -/
def GRAPH_TEMPLATE (nodes parent_child_edges cross_edges : String) : String :=
  "digraph G\n\x7b\n    splines=false\n" ++ nodes ++ "\n\n" ++
    parent_child_edges ++ "\n\n" ++ cross_edges ++ "\n\x7d"

/-- Python indentation constants. -/
def NODES_INDENT : Nat := 4

/-- Python indentation constant for the two edge fragments. -/
def EDGES_INDENT : Nat := 4

/-- Python indentation constant for table cells. -/
def CELL_INDENT : Nat := 20

/-- Python `indent`: prefix the string and every later line with spaces. -/
def indent (string : String) (num_spaces : Nat) : String :=
  let indent_string := String.mk (List.replicate num_spaces ' ')
  indent_string ++ string.replace ("\n") (("\n") ++ indent_string)

/-- Python `pad`: take `count` values from the iterable, substituting
the default once it is exhausted (so longer inputs are truncated). -/
def pad (iterable : List String) (count : Nat) (default : String) : List String :=
  match count, iterable with
  | 0, _ => []
  | n + 1, [] => default :: pad [] n default
  | n + 1, x :: xs => x :: pad xs n default

/-- Python `generate_node_name`: `block` followed by the dot-joined
index components. -/
def generate_node_name (index : Addr) : String :=
  "block" ++ String.intercalate (".") (index.map (fun i => toString i))

/-- Python `find_middle_port_name`: the key cell `keys_per_block / 2`
for odd capacity, else the connector cell `(keys_per_block + 1) / 2`. -/
def find_middle_port_name (tree : BPlusTree) : String :=
  if tree.keys_per_block % 2 ≠ 0 then
    KEY_NAME_TEMPLATE (tree.keys_per_block / 2)
  else
    CONNECTOR_NAME_TEMPLATE ((tree.keys_per_block + 1) / 2)

/-- Python `generate_node_cells`: pad the keys to `keys_per_block`
entries, yield a connector cell and a key cell per padded key, then the
closing connector cell `children_per_block - 1`. -/
def generate_node_cells (tree : BPlusTree) (keys : Keys) : List String :=
  let padded := pad keys tree.keys_per_block DUMMY_KEY
  (padded.enum.map (fun ik => [CONNECTOR_TEMPLATE ik.1, KEY_TEMPLATE ik.1 ik.2])).flatten
    ++ [CONNECTOR_TEMPLATE (tree.children_per_block - 1)]

/-- Python `generate_dot_node`: render one block. Consuming the cells of
a block whose stored keys are `None` calls `pad(None, ...)`, which
raises `TypeError` (modelled as `Except.error`). -/
def generate_dot_node (tree : BPlusTree) (index : Addr) (keys : Option Keys) :
    Except String String :=
  match keys with
  | none => .error ("TypeError: NoneType is not iterable")
  | some ks =>
      .ok (NODE_TEMPLATE (generate_node_name index)
        (indent (String.intercalate ("\n") (generate_node_cells tree ks)) CELL_INDENT))

/-- Measure helper (not part of the source): an upper bound on the
length of any stored block index. -/
def BPlusTree.maxAddrLen (t : BPlusTree) : Nat :=
  (t.indexed_blocks.map (fun p => p.1.length)).foldr max 0

/-- Measure fact: members bound a `foldr max`. -/
def le_foldrMax : ∀ (l : List Nat) (x : Nat), x ∈ l → x ≤ l.foldr max 0 := by
  intro l
  induction l with
  | nil => intro x hx; cases hx
  | cons y ys ih =>
      intro x hx
      rcases List.mem_cons.mp hx with h | h
      · subst h; exact Nat.le_max_left _ _
      · exact le_trans (ih x h) (Nat.le_max_right _ _)

/-- Measure fact: a successful association-list lookup comes from a
member of the list. -/
def lookup_mem : ∀ (l : List (Addr × Option Keys)) (a : Addr) (v : Option Keys),
    l.lookup a = some v → (a, v) ∈ l := by
  intro l
  induction l with
  | nil => intro a v h; simp [List.lookup] at h
  | cons p ps ih =>
      intro a v h
      obtain ⟨k, b⟩ := p
      rw [List.lookup] at h
      cases hk : a == k with
      | true =>
          simp only [hk, Option.some.injEq] at h
          have : a = k := eq_of_beq hk
          subst this
          subst h
          exact List.mem_cons_self _ _
      | false =>
          simp only [hk] at h
          exact List.mem_cons_of_mem _ (ih a v h)

/-- Measure fact: a mapped index is no longer than `maxAddrLen`. -/
def blockKeys_len_le : ∀ (t : BPlusTree) (a : Addr) (ks : Keys),
    t.blockKeys a = some ks → a.length ≤ t.maxAddrLen := by
  intro t a ks h
  unfold BPlusTree.blockKeys at h
  rcases hl : t.indexed_blocks.lookup a with _ | v
  · rw [hl] at h; exact absurd h (by simp)
  · rw [hl] at h
    have hmem := lookup_mem t.indexed_blocks a v hl
    have : a.length ∈ t.indexed_blocks.map (fun p => p.1.length) :=
      List.mem_map.mpr ⟨(a, v), hmem, rfl⟩
    exact le_foldrMax _ _ this

/-- Measure helper (not part of the source): the base-`cpb` value of an
index with digits clamped to `cpb - 1`.  `right_sibling` increments it
by exactly one whenever it returns an index. -/
def nuC (cpb : Nat) (a : Addr) : Nat :=
  a.foldl (fun acc i => acc * cpb + min i (cpb - 1)) 0

/-- Measure fact: `nuC` of `xs ++ [x]` unfolds to one digit step. -/
def nuC_append : ∀ (cpb : Nat) (xs : Addr) (x : Nat),
    nuC cpb (xs ++ [x]) = nuC cpb xs * cpb + min x (cpb - 1) := by
  intro cpb xs x
  simp [nuC, List.foldl_append]

/-- Measure fact: `nuC` is below `cpb ^ length` for positive `cpb`. -/
def nuC_lt : ∀ (cpb : Nat) (a : Addr), 1 ≤ cpb → nuC cpb a < cpb ^ a.length := by
  intro cpb a hcpb
  induction a using List.reverseRecOn with
  | nil => simp [nuC]
  | append_singleton xs x ih =>
      rw [nuC_append, List.length_append, List.length_singleton, pow_succ]
      have hmin : min x (cpb - 1) ≤ cpb - 1 := Nat.min_le_right _ _
      have h1 : nuC cpb xs + 1 ≤ cpb ^ xs.length := ih
      have h2 : (nuC cpb xs + 1) * cpb ≤ cpb ^ xs.length * cpb :=
        Nat.mul_le_mul_right cpb h1
      have e : (nuC cpb xs + 1) * cpb = nuC cpb xs * cpb + cpb := by ring
      rw [e] at h2
      omega

/-- Measure fact: when `right_sibling` finds an index, it has the same
length and `nuC` exactly one larger. -/
def rs_step : ∀ (t : BPlusTree) (a b : Addr), t.right_sibling a = some b →
    b.length = a.length ∧
      nuC t.children_per_block b = nuC t.children_per_block a + 1 := by
  intro t a
  induction a using List.reverseRecOn with
  | nil =>
      intro b h
      rw [BPlusTree.right_sibling] at h
      simp at h
  | append_singleton xs x ih =>
      intro b h
      rw [BPlusTree.right_sibling] at h
      have hne : xs ++ [x] ≠ [] := by simp
      rw [dif_neg hne] at h
      simp only [List.getLast_concat, List.dropLast_concat] at h
      set cpb := t.children_per_block with hcpb
      have hcpb1 : 1 ≤ cpb := Nat.succ_le_succ (Nat.zero_le _)
      by_cases hx : x < cpb - 1
      · rw [if_pos hx] at h
        cases h
        constructor
        · simp
        · rw [nuC_append, nuC_append]
          have : min x (cpb - 1) = x := Nat.min_eq_left (by omega)
          have h2 : min (x + 1) (cpb - 1) = x + 1 := Nat.min_eq_left (by omega)
          omega
      · rw [if_neg hx] at h
        rcases hps : t.right_sibling xs with _ | ps
        all_goals rw [hps] at h
        · simp at h
        · simp only [Option.some.injEq] at h
          obtain ⟨hlen, hnu⟩ := ih ps hps
          subst h
          refine ⟨by simp [hlen], ?_⟩
          rw [nuC_append, nuC_append, hnu]
          have hminx : min x (cpb - 1) = cpb - 1 := Nat.min_eq_right (by omega)
          have hmin0 : min 0 (cpb - 1) = 0 := Nat.min_eq_left (Nat.zero_le _)
          rw [hminx, hmin0]
          have e : (nuC cpb xs + 1) * cpb = nuC cpb xs * cpb + cpb := by ring
          omega

/-- Measure helper (not part of the source): distance of an index from
the right end of its level, used to show that repeatedly taking
`right_sibling` terminates. -/
def BPlusTree.rsMeasure (t : BPlusTree) (a : Addr) : Nat :=
  t.children_per_block ^ a.length - nuC t.children_per_block a

/-- Measure helper for an optional index (`none` is terminal). -/
def omMeasure (t : BPlusTree) : Option Addr → Nat
  | none => 0
  | some a => t.rsMeasure a + 1

/-- Measure fact: one `right_sibling` step strictly decreases the
measure. -/
def rs_dec : ∀ (t : BPlusTree) (a : Addr),
    omMeasure t (t.right_sibling a) < omMeasure t (some a) := by
  intro t a
  rcases h : t.right_sibling a with _ | b
  · simp [omMeasure]
  · obtain ⟨hlen, hnu⟩ := rs_step t a b h
    have hlt : nuC t.children_per_block a < t.children_per_block ^ a.length :=
      nuC_lt _ _ (by unfold BPlusTree.children_per_block; omega)
    simp only [omMeasure, BPlusTree.rsMeasure, hlen, hnu]
    omega

/-- Python `find_max_level`: depth of the tree of mapped blocks below an
index.  The Python `max` ranges over the `children_per_block` children
(a nonempty list), so `foldr max 0` computes the same value; `tree[c]`
is `__getitem__`, whose validity check always passes on the indices this
recursion produces from a valid start, so it equals `blockKeys`. -/
def find_max_level (t : BPlusTree) (index : Addr) : Nat :=
  match h : t.blockKeys index with
  | none => 0
  | some _ =>
      1 + ((List.range t.children_per_block).map
        (fun i => find_max_level t (index ++ [i]))).foldr max 0
termination_by t.maxAddrLen + 1 - index.length
decreasing_by
  have := blockKeys_len_le t index _ h
  simp only [List.length_append, List.length_singleton]
  omega

/-- The filtered generator `(c for c in tree.children(index) if tree[c]
is not None)` used by `generate_parent_child_edges`. -/
def existingChildren (t : BPlusTree) (index : Addr) : List Addr :=
  (t.children index).filter (fun c => (t.blockKeys c).isSome)

/-- Measure fact: an existing child is mapped and one level deeper. -/
def existingChildren_mem : ∀ (t : BPlusTree) (index c : Addr),
    c ∈ existingChildren t index →
      (t.blockKeys c).isSome = true ∧ c.length = index.length + 1 := by
  intro t index c hc
  simp only [existingChildren, BPlusTree.children, List.mem_filter,
    List.mem_map, List.mem_range] at hc
  obtain ⟨⟨i, hi, rfl⟩, hsome⟩ := hc
  exact ⟨hsome, by simp⟩

/-- Python `generate_parent_child_edges`: for the existing children of a
block, enumerated densely (the connector number is the position among
existing children), emit one edge to the child's middle port and recurse
into the child. -/
def generate_parent_child_edges (t : BPlusTree) (index : Addr) : List String :=
  ((existingChildren t index).attach.enum.map (fun p =>
      PARENT_CHILD_EDGE_TEMPLATE (generate_node_name index)
          (CONNECTOR_NAME_TEMPLATE p.1) (generate_node_name p.2.1)
          (find_middle_port_name t)
        :: generate_parent_child_edges t p.2.1)).flatten
termination_by t.maxAddrLen + 1 - index.length
decreasing_by
  obtain ⟨hsome, hlen⟩ := existingChildren_mem t index p.2.1 p.2.2
  rcases hks : t.blockKeys p.2.1 with _ | ks
  · rw [hks] at hsome; simp at hsome
  · have := blockKeys_len_le t p.2.1 ks hks
    omega

/-- Structured mirror of `generate_parent_child_edges`: the list of
`(parent, dense position, child)` triples for which an edge string is
produced, in production order. -/
def pcEdgeList (t : BPlusTree) (index : Addr) : List (Addr × Nat × Addr) :=
  ((existingChildren t index).attach.enum.map (fun p =>
      (index, p.1, p.2.1) :: pcEdgeList t p.2.1)).flatten
termination_by t.maxAddrLen + 1 - index.length
decreasing_by
  obtain ⟨hsome, hlen⟩ := existingChildren_mem t index p.2.1 p.2.2
  rcases hks : t.blockKeys p.2.1 with _ | ks
  · rw [hks] at hsome; simp at hsome
  · have := blockKeys_len_le t p.2.1 ks hks
    omega

/-- Rendering of one structured parent-child edge as the source formats
it. -/
def renderPCEdge (t : BPlusTree) (e : Addr × Nat × Addr) : String :=
  PARENT_CHILD_EDGE_TEMPLATE (generate_node_name e.1)
    (CONNECTOR_NAME_TEMPLATE e.2.1) (generate_node_name e.2.2)
    (find_middle_port_name t)

/-- The blocks visited as parents by the recursive parent-child edge
traversal: the start block and, recursively, every existing child. -/
def reachedBlocks (t : BPlusTree) (index : Addr) : List Addr :=
  index :: ((existingChildren t index).attach.map
    (fun c => reachedBlocks t c.1)).flatten
termination_by t.maxAddrLen + 1 - index.length
decreasing_by
  obtain ⟨hsome, hlen⟩ := existingChildren_mem t index c.1 c.2
  rcases hks : t.blockKeys c.1 with _ | ks
  · rw [hks] at hsome; simp at hsome
  · have := blockKeys_len_le t c.1 ks hks
    omega

/-- Iterated `right_sibling` (not part of the source; used to state what
a run of adjacent leaves is). -/
def iterRS (t : BPlusTree) (a : Addr) : Nat → Option Addr
  | 0 => some a
  | k + 1 =>
      match iterRS t a k with
      | some b => t.right_sibling b
      | none => none

/-- Python `pairwise`: all pairs of adjacent values of a list. -/
def pairwise (l : List Addr) : List (Addr × Addr) :=
  l.zip l.tail

/-- Python `generate_cross_edge_range`: one non-constraining edge per
adjacent pair of a run, from the right connector of the left block to
the left connector of the right block. -/
def generate_cross_edge_range (t : BPlusTree) (leaves : List Addr) : List String :=
  (pairwise leaves).map (fun p =>
    LEAF_CROSS_EDGE_TEMPLATE (generate_node_name p.1)
      (CONNECTOR_NAME_TEMPLATE t.keys_per_block)
      (generate_node_name p.2) (CONNECTOR_NAME_TEMPLATE 0))

/-- Python `find_adjacent_leaves`: walk right-sibling by right-sibling
from a start index, yielding mapped blocks, stopping silently at the end
of the level, stopping the run at the first omitted block, and skipping
unmapped blocks that are not structurally expected.  `tree[index]` is
`__getitem__`, whose validity check always passes on the indices this
walk produces from the valid indices `generate_cross_edges` feeds it, so
it equals `blockKeys`; a `was_omitted` call on an index whose ancestors
all lack truthy keys raises `TypeError` (the `Except.error` case). -/
def find_adjacent_leaves (t : BPlusTree) (index : Addr) : Except String (List Addr) :=
  match t.blockKeys index with
  | some _ =>
      match hrs : t.right_sibling index with
      | none => .ok [index]
      | some b =>
          match find_adjacent_leaves t b with
          | .error e => .error e
          | .ok rest => .ok (index :: rest)
  | none =>
      match t.was_omitted index with
      | none => .error ("TypeError: NoneType in was_omitted")
      | some true => .ok []
      | some false =>
          match hrs : t.right_sibling index with
          | none => .ok []
          | some b => find_adjacent_leaves t b
termination_by t.rsMeasure index
decreasing_by
  all_goals
    have hd := rs_dec t index
    rw [hrs] at hd
    simp only [omMeasure] at hd
    omega

/-- The skip loop `while index is not None and tree[index] is None` of
`generate_cross_edges` (again `tree[index]` equals `blockKeys` on the
valid indices it is fed). -/
def skip_unmapped (t : BPlusTree) (o : Option Addr) : Option Addr :=
  match o with
  | none => none
  | some a =>
      if t.blockKeys a = none then skip_unmapped t (t.right_sibling a)
      else some a
termination_by omMeasure t o
decreasing_by
  exact rs_dec t _

/-- Measure fact: `getLast?` produces a member of the list. -/
def getLast?_mem_fact : ∀ (l : List Addr) (a : Addr), l.getLast? = some a → a ∈ l := by
  intro l a h
  cases l with
  | nil => simp at h
  | cons x xs =>
      have hne : x :: xs ≠ [] := by simp
      rw [List.getLast?_eq_getLast_of_ne_nil hne] at h
      simp only [Option.some.injEq] at h
      rw [← h]
      exact List.getLast_mem hne

/-- Measure fact: the skip loop only moves rightward (never increases
the measure) and stops on a mapped index. -/
def skip_post : ∀ (t : BPlusTree) (o : Option Addr) (a : Addr),
    skip_unmapped t o = some a →
      omMeasure t (some a) ≤ omMeasure t o ∧ (t.blockKeys a).isSome = true := by
  intro t
  suffices H : ∀ (n : Nat) (o : Option Addr), omMeasure t o ≤ n → ∀ a,
      skip_unmapped t o = some a →
        omMeasure t (some a) ≤ omMeasure t o ∧ (t.blockKeys a).isSome = true by
    intro o a h
    exact H (omMeasure t o) o le_rfl a h
  intro n
  induction n with
  | zero =>
      intro o hle a h
      cases o with
      | none => rw [skip_unmapped] at h; simp at h
      | some b => simp [omMeasure] at hle
  | succ n ih =>
      intro o hle a h
      cases o with
      | none => rw [skip_unmapped] at h; simp at h
      | some b =>
          rw [skip_unmapped] at h
          by_cases hbk : t.blockKeys b = none
          · rw [if_pos hbk] at h
            have hd := rs_dec t b
            have hle2 : omMeasure t (t.right_sibling b) ≤ n := by
              simp only [omMeasure] at hd hle ⊢
              omega
            obtain ⟨h1, h2⟩ := ih (t.right_sibling b) hle2 a h
            exact ⟨le_trans h1 (le_of_lt hd), h2⟩
          · rw [if_neg hbk] at h
            simp only [Option.some.injEq] at h
            subst h
            exact ⟨le_rfl, Option.ne_none_iff_isSome.mp hbk⟩

/-- Measure fact: every index in a run of adjacent leaves lies at or to
the right of the start of the run. -/
def fal_post : ∀ (t : BPlusTree) (a : Addr) (leaves : List Addr),
    find_adjacent_leaves t a = .ok leaves →
      ∀ x ∈ leaves, t.rsMeasure x ≤ t.rsMeasure a := by
  intro t
  suffices H : ∀ (n : Nat) (a : Addr), t.rsMeasure a = n → ∀ leaves,
      find_adjacent_leaves t a = .ok leaves →
        ∀ x ∈ leaves, t.rsMeasure x ≤ t.rsMeasure a by
    intro a leaves h
    exact H (t.rsMeasure a) a rfl leaves h
  intro n
  induction n using Nat.strong_induction_on with
  | _ n ih =>
      intro a hn leaves h x hx
      rw [find_adjacent_leaves] at h
      split at h
      · split at h
        · simp only [Except.ok.injEq] at h
          subst h
          simp only [List.mem_singleton] at hx
          subst hx
          exact le_rfl
        · rename_i b hrs
          split at h
          · simp at h
          · rename_i rest hrest
            simp only [Except.ok.injEq] at h
            subst h
            have hd := rs_dec t a
            rw [hrs] at hd
            simp only [omMeasure] at hd
            rcases List.mem_cons.mp hx with h1 | h1
            · subst h1; exact le_rfl
            · have := ih (t.rsMeasure b) (by omega) b rfl rest hrest x h1
              omega
      · split at h
        · simp at h
        · simp only [Except.ok.injEq] at h
          subst h
          simp at hx
        · split at h
          · simp only [Except.ok.injEq] at h
            subst h
            simp at hx
          · rename_i b hrs
            have hd := rs_dec t a
            rw [hrs] at hd
            simp only [omMeasure] at hd
            have := ih (t.rsMeasure b) (by omega) b rfl leaves h x hx
            omega

/-- The `while True` loop of `generate_cross_edges`: skip unmapped
indices, stop when the level is exhausted, collect a run of adjacent
leaves (`adjacent_leaves[-1]` on an empty run would raise `IndexError`,
which cannot happen because the skip loop stops on a mapped index),
emit its cross edges and continue right of the run's last leaf. -/
def cross_edges_loop (t : BPlusTree) (index : Option Addr) : Except String (List String) :=
  match hsk : skip_unmapped t index with
  | none => .ok []
  | some idx =>
      match hfal : find_adjacent_leaves t idx with
      | .error e => .error e
      | .ok adjacent_leaves =>
          match hlast : adjacent_leaves.getLast? with
          | none => .error ("IndexError: list index out of range")
          | some last =>
              match cross_edges_loop t (t.right_sibling last) with
              | .error e => .error e
              | .ok rest =>
                  .ok (generate_cross_edge_range t adjacent_leaves ++ rest)
termination_by omMeasure t index
decreasing_by
  have h1 := (skip_post t index idx hsk).1
  have h2 := fal_post t idx adjacent_leaves hfal last
    (getLast?_mem_fact adjacent_leaves last hlast)
  have h3 := rs_dec t last
  simp only [omMeasure] at h1 h3 ⊢
  omega

/-- Python `generate_cross_edges`: descend `max_level - 1` times to the
0th child from the root, then run the cross-edge loop at that level. -/
def generate_cross_edges (t : BPlusTree) : Except String (List String) :=
  let max_level := find_max_level t t.root_index
  let index := (List.range (max_level - 1)).foldl (fun idx _ => idx ++ [0]) t.root_index
  cross_edges_loop t (some index)

/-- The evaluation of `'\n'.join(generate_dot_node(...) for ...)` over
`all_blocks`: node strings in insertion order, stopping at the first
raised exception. -/
def renderNodes (t : BPlusTree) : List (Addr × Option Keys) → Except String (List String)
  | [] => .ok []
  | (i, k) :: rest =>
      match generate_dot_node t i k with
      | .error e => .error e
      | .ok s =>
          match renderNodes t rest with
          | .error e => .error e
          | .ok others => .ok (s :: others)

/-- The `nodes` fragment of `generate_dot_graph`. -/
def nodesFragment (t : BPlusTree) : Except String String :=
  match renderNodes t t.all_blocks with
  | .error e => .error e
  | .ok l => .ok (String.intercalate ("\n") l)

/-- The `parent_child_edges` fragment of `generate_dot_graph`. -/
def pcFragment (t : BPlusTree) : String :=
  String.intercalate ("\n") (generate_parent_child_edges t t.root_index)

/-- The `cross_edges` fragment of `generate_dot_graph`. -/
def crossFragment (t : BPlusTree) : Except String String :=
  match generate_cross_edges t with
  | .error e => .error e
  | .ok l => .ok (String.intercalate ("\n") l)

/-- Python `generate_dot_graph`: join the three fragments (nodes first,
then parent-child edges, then cross edges), indent each, and put them
into the document template. -/
def generate_dot_graph (t : BPlusTree) : Except String String :=
  match nodesFragment t with
  | .error e => .error e
  | .ok nodes =>
      match crossFragment t with
      | .error e => .error e
      | .ok cross_edges =>
          .ok (GRAPH_TEMPLATE (indent nodes NODES_INDENT)
            (indent (pcFragment t) EDGES_INDENT)
            (indent cross_edges EDGES_INDENT))

/-- Python `main` after YAML loading: build the tree from the input
description, then generate the document (any exception in either phase
propagates; nothing is printed on failure). -/
def main_output (keys_per_block : Nat) (tree : Option Desc) : Except String String :=
  match BPlusTree.init keys_per_block tree with
  | .error e => .error e
  | .ok t => generate_dot_graph t

/-- Sample tree of Scenario 3 of the specification: `keys_per_block = 2`,
a root with two keys (so three structurally expected children), the
leaves 0 and 2 mapped and the middle child not mapped at all. -/
def scenario3Tree : BPlusTree :=
  ⟨2, [([], some ["1", "2"]), ([0], some ["a"]), ([2], some ["c"])]⟩

/-- Sample tree whose root is mapped to an empty key list. -/
def emptyKeysRootTree : BPlusTree := ⟨2, [([], some [])]⟩

/-- Padding computes the truncation of the key list followed by the
needed number of placeholders. -/
theorem pad_eq_take_append (keys : List String) (n : Nat) (d : String) :
    pad keys n d = keys.take n ++ List.replicate (n - keys.length) d := by
  induction n generalizing keys with
  | zero => rw [pad]; simp
  | succ n ih =>
      cases keys with
      | nil =>
          rw [pad, ih]
          simp [List.replicate_succ]
      | cons x xs =>
          rw [pad, ih]
          simp [List.take_succ_cons, List.length_cons]

/-- Padding always produces exactly `n` entries. -/
theorem pad_length (keys : List String) (n : Nat) (d : String) :
    (pad keys n d).length = n := by
  rw [pad_eq_take_append]
  simp only [List.length_append, List.length_take, List.length_replicate]
  omega

/-- Enumeration of a list turned into lookups with a default. -/
theorem enumFrom_map_getD {α : Type} (f : Nat × String → α) :
    ∀ (l : List String) (n : Nat),
      (l.enumFrom n).map f =
        (List.range l.length).map (fun i => f (n + i, l.getD i DUMMY_KEY)) := by
  intro l
  induction l with
  | nil => intro n; simp
  | cons x xs ih =>
      intro n
      rw [List.enumFrom, List.map_cons, ih (n + 1)]
      rw [List.length_cons, List.range_succ_eq_map, List.map_cons, List.map_map]
      refine congrArg₂ _ (by simp) ?_
      apply List.map_congr_left
      intro i _
      simp only [Function.comp_apply, List.getD_cons_succ]
      have e : n + 1 + i = n + (i + 1) := by omega
      rw [e]

/-- The enumerated cell pairs of a list written as range lookups. -/
theorem cells_enum_eq (l : List String) :
    l.enum.map (fun ik => [CONNECTOR_TEMPLATE ik.1, KEY_TEMPLATE ik.1 ik.2]) =
      (List.range l.length).map (fun i =>
        [CONNECTOR_TEMPLATE i, KEY_TEMPLATE i (l.getD i DUMMY_KEY)]) := by
  have h := enumFrom_map_getD
    (fun ik => [CONNECTOR_TEMPLATE ik.1, KEY_TEMPLATE ik.1 ik.2]) l 0
  simp only [List.enum]
  simpa using h

/-- C6: for every block, the key list is padded on the right with the
placeholder up to `keys_per_block` entries, and the cell sequence is the
alternation connector₀, key₀, connector₁, key₁, …, key_{n-1}, connectorₙ
with `n = keys_per_block`: it therefore holds `children_per_block`
connector cells numbered `0` through `keys_per_block`, `keys_per_block`
key cells, and `2 * keys_per_block + 1` cells overall. -/
theorem c6_node_cells (t : BPlusTree) (keys : Keys) :
    pad keys t.keys_per_block DUMMY_KEY =
        keys.take t.keys_per_block ++
          List.replicate (t.keys_per_block - keys.length) DUMMY_KEY ∧
    generate_node_cells t keys =
        ((List.range t.keys_per_block).map (fun i =>
          [CONNECTOR_TEMPLATE i,
           KEY_TEMPLATE i ((pad keys t.keys_per_block DUMMY_KEY).getD i DUMMY_KEY)])).flatten
          ++ [CONNECTOR_TEMPLATE t.keys_per_block] ∧
    (generate_node_cells t keys).length = 2 * t.keys_per_block + 1 := by
  have hcells : generate_node_cells t keys =
      ((List.range t.keys_per_block).map (fun i =>
        [CONNECTOR_TEMPLATE i,
         KEY_TEMPLATE i ((pad keys t.keys_per_block DUMMY_KEY).getD i DUMMY_KEY)])).flatten
        ++ [CONNECTOR_TEMPLATE t.keys_per_block] := by
    simp only [generate_node_cells]
    rw [cells_enum_eq, pad_length]
    simp [BPlusTree.children_per_block]
  refine ⟨pad_eq_take_append _ _ _, hcells, ?_⟩
  rw [hcells]
  simp only [List.length_append, List.length_flatten, List.map_map,
    List.length_singleton]
  have : ((List.range t.keys_per_block).map
      (List.length ∘ fun i =>
        [CONNECTOR_TEMPLATE i,
         KEY_TEMPLATE i ((pad keys t.keys_per_block DUMMY_KEY).getD i DUMMY_KEY)])) =
      List.replicate t.keys_per_block 2 := by
    rw [List.eq_replicate_iff]
    constructor
    · simp
    · intro b hb
      simp only [List.mem_map] at hb
      obtain ⟨i, _, rfl⟩ := hb
      rfl
  rw [this, List.sum_replicate]
  simp [Nat.mul_comm]

/-- C9: a key list longer than `keys_per_block` is truncated to its
first `keys_per_block` keys by `pad`, node generation renders exactly
those keys (the cells coincide with those of the truncated list), and no
error is raised (`generate_dot_node` returns a value). -/
theorem c9_excess_keys (t : BPlusTree) (keys : Keys)
    (h : t.keys_per_block ≤ keys.length) :
    pad keys t.keys_per_block DUMMY_KEY = keys.take t.keys_per_block ∧
    generate_node_cells t keys =
      generate_node_cells t (keys.take t.keys_per_block) ∧
    ∀ index : Addr, ∃ s, generate_dot_node t index (some keys) = .ok s := by
  have hp : pad keys t.keys_per_block DUMMY_KEY = keys.take t.keys_per_block := by
    rw [pad_eq_take_append]
    have h0 : t.keys_per_block - keys.length = 0 := by omega
    simp [h0]
  have hp2 : pad (keys.take t.keys_per_block) t.keys_per_block DUMMY_KEY =
      keys.take t.keys_per_block := by
    rw [pad_eq_take_append, List.take_take]
    simp only [min_self, List.length_take]
    have h0 : t.keys_per_block - min t.keys_per_block keys.length = 0 := by omega
    simp [h0]
  refine ⟨hp, ?_, fun index => ⟨_, rfl⟩⟩
  simp only [generate_node_cells, hp, hp2]

/-- C9 witness at `keys_per_block = 1` with two supplied keys. -/
theorem c9_witness :
    generate_node_cells ⟨1, []⟩ ["a", "b"] =
      generate_node_cells ⟨1, []⟩ (["a", "b"].take 1) :=
  (c9_excess_keys ⟨1, []⟩ ["a", "b"] (by decide)).2.1

/-- Rightmost indices (every component maximal) have no right sibling. -/
theorem rs_none_of_all_max (t : BPlusTree) : ∀ (a : Addr),
    (∀ i ∈ a, t.children_per_block - 1 ≤ i) → t.right_sibling a = none := by
  intro a
  induction a using List.reverseRecOn with
  | nil =>
      intro _
      rw [BPlusTree.right_sibling]
      simp
  | append_singleton xs x ih =>
      intro hall
      rw [BPlusTree.right_sibling]
      have hne : xs ++ [x] ≠ [] := by simp
      rw [dif_neg hne]
      simp only [List.getLast_concat, List.dropLast_concat]
      have hx : ¬ x < t.children_per_block - 1 := by
        have := hall x (by simp)
        omega
      rw [if_neg hx, ih (fun i hi => hall i (by simp [hi]))]

/-- C4: for a non-root index, `right_sibling` is the same parent with
the last component incremented when that component is not maximal;
otherwise it is the 0th child of the parent's right sibling when that
exists; and it is `none` exactly when every component is maximal (the
index was rightmost at every ancestor level). -/
theorem c4_right_sibling (t : BPlusTree) (a : Addr) (h : a ≠ []) :
    (a.getLast h < t.children_per_block - 1 →
        t.right_sibling a = some (a.dropLast ++ [a.getLast h + 1])) ∧
    (¬ a.getLast h < t.children_per_block - 1 →
        t.right_sibling a =
          (t.right_sibling a.dropLast).map (fun ps => ps ++ [0])) ∧
    ((∀ i ∈ a, t.children_per_block - 1 ≤ i) → t.right_sibling a = none) := by
  refine ⟨?_, ?_, rs_none_of_all_max t a⟩
  · intro hlt
    rw [BPlusTree.right_sibling, dif_neg h]
    simp [hlt]
  · intro hge
    rw [BPlusTree.right_sibling, dif_neg h]
    simp only [if_neg hge]
    cases hps : t.right_sibling a.dropLast <;> simp [hps]

/-- C4 witness: in the scenario tree, index `[2]` is rightmost at every
level, so it has no right sibling. -/
theorem c4_witness : scenario3Tree.right_sibling [2] = none :=
  (c4_right_sibling scenario3Tree [2] (by decide)).2.2 (by decide)

/-- C5: for every valid index and in-range child number, `nth_child`
succeeds and `parent` and `child_num` invert it. -/
theorem c5_child_roundtrip (t : BPlusTree) (a : Addr) (i : Nat)
    (hv : t.is_valid_index a = true) (hi : i < t.children_per_block) :
    ∃ c, t.nth_child a i = .ok c ∧ t.parent c = some a ∧
      t.child_num c = some i := by
  refine ⟨a ++ [i], ?_, ?_, ?_⟩
  · rw [BPlusTree.nth_child]
    have hn : t.is_valid_child_num i = true := by
      simp [BPlusTree.is_valid_child_num, hi]
    rw [if_pos hn]
  · rw [BPlusTree.parent]
    have hne : a ++ [i] ≠ t.root_index := by simp [BPlusTree.root_index]
    rw [if_neg hne, List.dropLast_concat]
  · rw [BPlusTree.child_num]
    have hne : a ++ [i] ≠ t.root_index := by simp [BPlusTree.root_index]
    rw [if_neg hne, List.getLast?_concat]

/-- C5 witness in the scenario tree at index `[0]`, child number 1. -/
theorem c5_witness :
    ∃ c, scenario3Tree.nth_child [0] 1 = .ok c ∧
      scenario3Tree.parent c = some [0] ∧ scenario3Tree.child_num c = some 1 :=
  c5_child_roundtrip scenario3Tree [0] 1 (by decide) (by decide)

/-- Validity of an index is inherited by its prefixes. -/
theorem valid_take (t : BPlusTree) (a : Addr) (m : Nat)
    (hv : t.is_valid_index a = true) : t.is_valid_index (a.take m) = true := by
  simp only [BPlusTree.is_valid_index, List.all_eq_true] at hv ⊢
  intro i hi
  exact hv i (List.take_subset m a hi)

/-- C3 counterexample: in a tree whose root is mapped to an empty key
list, the structurally valid index `[0]` has a mapped (nearest) ancestor
— the root — yet `was_omitted [0]` raises (`none`): the truthiness test
skips the empty key list and the recursion reaches `parent(root) = None`,
where `self[None]` raises `TypeError`. -/
theorem c3_counterexample :
    emptyKeysRootTree.is_valid_index [0] = true ∧
    emptyKeysRootTree.blockKeys [] = some [] ∧
    emptyKeysRootTree.was_omitted [0] = none := by
  refine ⟨by decide, by decide, ?_⟩
  have h1 : emptyKeysRootTree.was_omitted [] = none := by
    rw [BPlusTree.was_omitted]
    simp
  have hg : emptyKeysRootTree.getItem [] = some (some []) := by
    decide
  rw [BPlusTree.was_omitted, dif_neg (by decide : ¬(([0] : Addr) = []))]
  simp [hg, h1]

/-- C3 amended: `was_omitted` returns a boolean (never raises) on every
structurally valid index that has a proper ancestor carrying a
*non-empty* key list (the code treats an ancestor mapped to an empty or
null key list as unmapped and keeps walking up); repeated calls agree
because the function is pure. -/
theorem c3_was_omitted_amended (t : BPlusTree) (a : Addr)
    (hv : t.is_valid_index a = true)
    (hanc : ∃ k, k < a.length ∧ ∃ ks, t.blockKeys (a.take k) = some ks ∧ ks ≠ []) :
    ∃ b, t.was_omitted a = some b := by
  suffices H : ∀ (n : Nat) (a : Addr), a.length ≤ n →
      t.is_valid_index a = true →
      (∃ k, k < a.length ∧ ∃ ks, t.blockKeys (a.take k) = some ks ∧ ks ≠ []) →
      ∃ b, t.was_omitted a = some b by
    exact H a.length a le_rfl hv hanc
  intro n
  induction n with
  | zero =>
      intro a hlen _ hanc
      obtain ⟨k, hk, _⟩ := hanc
      omega
  | succ n ih =>
      intro a hlen hv hanc
      obtain ⟨k, hk, ks, hks, hne⟩ := hanc
      have hane : a ≠ [] := by
        intro h
        subst h
        simp at hk
      have hvd : t.is_valid_index a.dropLast = true := by
        rw [List.dropLast_eq_take]
        exact valid_take t a _ hv
      have hg : t.getItem a.dropLast = some (t.blockKeys a.dropLast) := by
        rw [BPlusTree.getItem, if_pos hvd]
      have hrec : t.blockKeys a.dropLast ≠ some ks →
          ∃ b, t.was_omitted a.dropLast = some b := by
        intro hbkne
        have hk' : k < a.dropLast.length := by
          rw [List.length_dropLast]
          rcases Nat.lt_or_ge k (a.length - 1) with h' | h'
          · exact h'
          · exfalso
            have hkeq : a.take k = a.dropLast := by
              rw [List.dropLast_eq_take]
              congr 1
              omega
            rw [hkeq] at hks
            exact hbkne hks
        have htake : a.dropLast.take k = a.take k := by
          rw [List.dropLast_eq_take, List.take_take]
          congr 1
          omega
        exact ih a.dropLast (by rw [List.length_dropLast]; omega) hvd
          ⟨k, hk', ks, by rw [htake]; exact hks, hne⟩
      rw [BPlusTree.was_omitted, dif_neg hane]
      rcases hbk : t.blockKeys a.dropLast with _ | ks2
      · rw [hbk] at hg
        obtain ⟨b, hb⟩ := hrec (by rw [hbk]; simp)
        simp [hg, hb]
      · rw [hbk] at hg
        by_cases hemp : ks2.isEmpty = true
        · have hke : ks2 = [] := by
            cases ks2
            · rfl
            · simp at hemp
          obtain ⟨b, hb⟩ := hrec (by rw [hbk, hke]; simp [Ne.symm hne])
          simp [hg, hemp, hb]
        · refine ⟨decide (a.getLast hane ≤ ks2.length), ?_⟩
          simp [hg, hemp]

/-- C3 witness for the amended statement: in the scenario tree the index
`[1]` is valid and the root (a proper ancestor) carries non-empty keys,
so `was_omitted` returns a boolean. -/
theorem c3_witness : ∃ b, scenario3Tree.was_omitted [1] = some b :=
  c3_was_omitted_amended scenario3Tree [1] (by decide)
    ⟨0, by decide, ["1", "2"], by decide, by decide⟩

/-- A tree with no stored blocks maps every index to `none`. -/
theorem blockKeys_nilTree (kpb : Nat) (a : Addr) :
    (⟨kpb, []⟩ : BPlusTree).blockKeys a = none := rfl

/-- A tree with no stored blocks has no existing children anywhere. -/
theorem existingChildren_nilTree (kpb : Nat) (a : Addr) :
    existingChildren ⟨kpb, []⟩ a = [] := by
  simp [existingChildren, blockKeys_nilTree]

/-- The empty tree generates no parent-child edges. -/
theorem gpce_nilTree (kpb : Nat) :
    generate_parent_child_edges ⟨kpb, []⟩ [] = [] := by
  rw [generate_parent_child_edges]
  simp [existingChildren_nilTree]

/-- The root has no right sibling. -/
theorem rs_nil (t : BPlusTree) : t.right_sibling [] = none := by
  rw [BPlusTree.right_sibling]
  simp

/-- On the empty tree the skip loop runs off the end of the level. -/
theorem skip_nilTree (kpb : Nat) :
    skip_unmapped ⟨kpb, []⟩ (some []) = none := by
  rw [skip_unmapped]
  rw [if_pos (blockKeys_nilTree kpb [])]
  rw [rs_nil, skip_unmapped]

/-- The empty tree generates no cross edges from the loop. -/
theorem cross_loop_nilTree (kpb : Nat) :
    cross_edges_loop ⟨kpb, []⟩ (some []) = .ok [] := by
  rw [cross_edges_loop]
  split
  · rfl
  · rename_i idx hsk
    rw [skip_nilTree] at hsk
    simp at hsk

/-- The empty tree has depth zero. -/
theorem find_max_level_nilTree (kpb : Nat) :
    find_max_level ⟨kpb, []⟩ [] = 0 := by
  rw [find_max_level]
  split
  · rfl
  · rename_i ks h
    rw [blockKeys_nilTree] at h
    simp at h

/-- The empty tree generates no cross edges at all. -/
theorem generate_cross_edges_nilTree (kpb : Nat) :
    generate_cross_edges ⟨kpb, []⟩ = .ok [] := by
  simp only [generate_cross_edges, find_max_level_nilTree, BPlusTree.root_index]
  norm_num
  exact cross_loop_nilTree kpb

/-- The empty tree has an empty nodes fragment. -/
theorem nodesFragment_nilTree (kpb : Nat) :
    nodesFragment ⟨kpb, []⟩ = .ok ("") := by
  rw [nodesFragment]
  rfl

/-- The empty tree has an empty parent-child edge fragment. -/
theorem pcFragment_nilTree (kpb : Nat) : pcFragment ⟨kpb, []⟩ = ("") := by
  simp only [pcFragment, BPlusTree.root_index, gpce_nilTree]
  rfl

/-- The empty tree has an empty cross-edge fragment. -/
theorem crossFragment_nilTree (kpb : Nat) :
    crossFragment ⟨kpb, []⟩ = .ok ("") := by
  simp only [crossFragment, generate_cross_edges_nilTree]
  rfl

/-- Full document generation on the empty tree: the template applied to
three empty (indented) fragments, with no error raised. -/
theorem empty_tree_doc (kpb : Nat) :
    generate_dot_graph ⟨kpb, []⟩ =
      .ok (GRAPH_TEMPLATE (indent ("") NODES_INDENT)
        (indent ("") EDGES_INDENT) (indent ("") EDGES_INDENT)) := by
  rw [generate_dot_graph]
  simp only [nodesFragment_nilTree, crossFragment_nilTree, pcFragment_nilTree]

/-- C10: constructing a tree from an absent (`None`) description yields
a tree with no blocks, and full document generation on it returns the
document template with empty node, parent-child-edge and cross-edge
fragments, raising no error. -/
theorem c10_empty_description (kpb : Nat) :
    BPlusTree.init kpb none = .ok ⟨kpb, []⟩ ∧
    (⟨kpb, []⟩ : BPlusTree).all_blocks = [] ∧
    nodesFragment ⟨kpb, []⟩ = .ok ("") ∧
    pcFragment ⟨kpb, []⟩ = ("") ∧
    crossFragment ⟨kpb, []⟩ = .ok ("") ∧
    generate_dot_graph ⟨kpb, []⟩ =
      .ok (GRAPH_TEMPLATE (indent ("") NODES_INDENT)
        (indent ("") EDGES_INDENT) (indent ("") EDGES_INDENT)) ∧
    main_output kpb none =
      .ok (GRAPH_TEMPLATE (indent ("") NODES_INDENT)
        (indent ("") EDGES_INDENT) (indent ("") EDGES_INDENT)) := by
  have hinit : BPlusTree.init kpb none = .ok ⟨kpb, []⟩ := by
    rw [BPlusTree.init]
    rfl
  refine ⟨hinit, rfl, nodesFragment_nilTree kpb, pcFragment_nilTree kpb,
    crossFragment_nilTree kpb, empty_tree_doc kpb, ?_⟩
  rw [main_output]
  simp only [hinit]
  exact empty_tree_doc kpb

/-- A malformed description entry makes `_add_block` (and so the whole
construction) raise: simultaneous size induction for `_add_block` and
the children loop. -/
theorem add_malformed_error : ∀ (n : Nat),
    (∀ d : Desc, sizeOf d ≤ n → hasMalformed d = true → ∀ cpb index,
      ∃ e, BPlusTree.add_block cpb index d = .error e) ∧
    (∀ cs : List Desc, sizeOf cs ≤ n → hasMalformedList cs = true →
      ∀ cpb index i, ∃ e, BPlusTree.add_children cpb index i cs = .error e) := by
  intro n
  induction n with
  | zero =>
      constructor
      · intro d hd
        exfalso
        cases d <;> simp at hd
      · intro cs hcs hm
        exfalso
        cases cs with
        | nil => rw [hasMalformedList] at hm; simp at hm
        | cons c rest => simp at hcs
  | succ n ih =>
      constructor
      · intro d hd hm cpb index
        cases d with
        | bare keys => rw [hasMalformed] at hm; simp at hm
        | node keysField children =>
            cases keysField with
            | none => exact ⟨_, by rw [BPlusTree.add_block]⟩
            | some keys =>
                rw [hasMalformed] at hm
                cases children with
                | none =>
                    simp only [Option.getD_none] at hm
                    rw [hasMalformedList] at hm
                    simp at hm
                | some cs =>
                    have hsz : sizeOf cs ≤ n := by
                      simp at hd
                      omega
                    obtain ⟨e, he⟩ := ih.2 cs hsz (by simpa using hm) cpb index 0
                    refine ⟨e, ?_⟩
                    rw [BPlusTree.add_block]
                    simp only [Option.getD_some]
                    rw [he]
                    rfl
      · intro cs hcs hm cpb index i
        cases cs with
        | nil => rw [hasMalformedList] at hm; simp at hm
        | cons c rest =>
            rw [hasMalformedList] at hm
            by_cases hi : i < cpb
            · rcases Bool.or_eq_true_iff.mp hm with hm1 | hm2
              · have hsz : sizeOf c ≤ n := by
                  simp at hcs
                  omega
                obtain ⟨e, he⟩ := ih.1 c hsz hm1 cpb (index ++ [i])
                refine ⟨e, ?_⟩
                rw [BPlusTree.add_children]
                simp only [if_pos hi]
                rw [he]
                rfl
              · rcases hout : BPlusTree.add_block cpb (index ++ [i]) c with e0 | blocks
                · refine ⟨e0, ?_⟩
                  rw [BPlusTree.add_children]
                  simp only [if_pos hi]
                  rw [hout]
                  rfl
                · have hsz : sizeOf rest ≤ n := by
                    simp at hcs
                    omega
                  obtain ⟨e, he⟩ := ih.2 rest hsz hm2 cpb index (i + 1)
                  refine ⟨e, ?_⟩
                  rw [BPlusTree.add_children]
                  simp only [if_pos hi]
                  rw [hout, he]
                  rfl
            · refine ⟨("Out of range child number"), ?_⟩
              rw [BPlusTree.add_children]
              simp only [if_neg hi]

/-- C7 amended: a malformed block entry (a structure without a `keys`
field) anywhere in the description makes construction fail before any
graph generation, with no output — *unless* the malformed entry is the
top-level description itself and is falsy (an empty structure), which
`__init__`'s truthiness test silently treats as an absent tree. -/
theorem c7_malformed_amended (kpb : Nat) (d : Desc)
    (hm : hasMalformed d = true) (ht : descTruthy (some d) = true) :
    ∃ e, BPlusTree.init kpb (some d) = .error e ∧
      main_output kpb (some d) = .error e := by
  obtain ⟨e, he⟩ := (add_malformed_error (sizeOf d)).1 d le_rfl hm (kpb + 1) []
  have hinit : BPlusTree.init kpb (some d) = .error e := by
    rw [BPlusTree.init, if_pos ht]
    simp only [he]
    rfl
  refine ⟨e, hinit, ?_⟩
  rw [main_output]
  simp only [hinit]

/-- C7 counterexample: the description that is a bare empty structure
(no `keys`, no `children`) is malformed, yet construction succeeds with
an empty tree and full output is produced, because Python's `if tree:`
treats the empty dict as falsy. -/
theorem c7_counterexample :
    hasMalformed (Desc.node none none) = true ∧
    BPlusTree.init 2 (some (Desc.node none none)) = .ok ⟨2, []⟩ ∧
    ∃ s, main_output 2 (some (Desc.node none none)) = .ok s := by
  have hinit : BPlusTree.init 2 (some (Desc.node none none)) = .ok ⟨2, []⟩ := by
    rw [BPlusTree.init]
    rfl
  refine ⟨by rw [hasMalformed], hinit, ?_⟩
  refine ⟨GRAPH_TEMPLATE (indent ("") NODES_INDENT)
    (indent ("") EDGES_INDENT) (indent ("") EDGES_INDENT), ?_⟩
  rw [main_output]
  simp only [hinit]
  exact empty_tree_doc 2

/-- C7 witness for the amended statement: a truthy description with a
malformed child entry makes construction and the whole run fail. -/
theorem c7_witness :
    ∃ e, BPlusTree.init 2
        (some (Desc.node (some (some ["k"])) (some [Desc.node none none]))) =
          .error e ∧
      main_output 2
        (some (Desc.node (some (some ["k"])) (some [Desc.node none none]))) =
          .error e := by
  refine c7_malformed_amended 2 _ ?_ (by rfl)
  rw [hasMalformed]
  simp only [Option.getD_some]
  rw [hasMalformedList, hasMalformed]
  simp

/-- C8: document generation is deterministic — two trees built from the
same input yield identical output — and every produced document is the
template applied to the nodes fragment, then the parent-child edge
fragment, then the cross-edge fragment, in that fixed order. -/
theorem c8_deterministic (kpb : Nat) (d : Option Desc) (t1 t2 : BPlusTree)
    (h1 : BPlusTree.init kpb d = .ok t1) (h2 : BPlusTree.init kpb d = .ok t2) :
    generate_dot_graph t1 = generate_dot_graph t2 ∧
    (∀ doc, generate_dot_graph t1 = .ok doc →
      ∃ ns cs, nodesFragment t1 = .ok ns ∧ crossFragment t1 = .ok cs ∧
        doc = GRAPH_TEMPLATE (indent ns NODES_INDENT)
          (indent (pcFragment t1) EDGES_INDENT) (indent cs EDGES_INDENT)) := by
  have ht : t1 = t2 := by
    rw [h1] at h2
    simp only [Except.ok.injEq] at h2
    exact h2
  subst ht
  refine ⟨rfl, ?_⟩
  intro doc hdoc
  rw [generate_dot_graph] at hdoc
  split at hdoc
  · simp at hdoc
  · rename_i ns hns
    split at hdoc
    · simp at hdoc
    · rename_i cs hcs
      simp only [Except.ok.injEq] at hdoc
      exact ⟨ns, cs, hns, hcs, hdoc.symm⟩

/-- C8 witness: a one-block input built twice gives identical output. -/
theorem c8_witness :
    generate_dot_graph ⟨2, [([], some ["k"])]⟩ =
      generate_dot_graph ⟨2, [([], some ["k"])]⟩ := by
  have hinit : BPlusTree.init 2 (some (Desc.bare (some ["k"]))) =
      .ok ⟨2, [([], some ["k"])]⟩ := by
    rw [BPlusTree.init,
      if_pos (by rfl : descTruthy (some (Desc.bare (some ["k"]))) = true)]
    simp only [BPlusTree.add_block]
    rfl
  exact (c8_deterministic 2 (some (Desc.bare (some ["k"]))) _ _ hinit hinit).1

/-- Depth of an unmapped index is zero. -/
theorem find_max_level_unmapped (t : BPlusTree) (a : Addr)
    (h : t.blockKeys a = none) : find_max_level t a = 0 := by
  rw [find_max_level]
  split
  · rfl
  · rename_i ks hks
    rw [h] at hks
    simp at hks

/-- Depth of a mapped index unfolds to one plus the maximum over the
children. -/
theorem find_max_level_mapped (t : BPlusTree) (a : Addr) (ks : Keys)
    (h : t.blockKeys a = some ks) :
    find_max_level t a =
      1 + ((List.range t.children_per_block).map
        (fun i => find_max_level t (a ++ [i]))).foldr max 0 := by
  rw [find_max_level]
  split
  · rename_i h0
    rw [h] at h0
    simp at h0
  · rfl

/-- Scenario 3 evaluated: the tree has two levels of mapped blocks. -/
theorem scenario3_max_level : find_max_level scenario3Tree [] = 2 := by
  have hcpb : scenario3Tree.children_per_block = 3 := rfl
  have hrange : List.range 3 = [0, 1, 2] := by decide
  have h0 : find_max_level scenario3Tree [0] = 1 := by
    rw [find_max_level_mapped scenario3Tree [0] ["a"] (by decide), hcpb, hrange]
    simp only [List.map_cons, List.map_nil, List.cons_append, List.nil_append]
    rw [find_max_level_unmapped _ _ (by decide : scenario3Tree.blockKeys [0, 0] = none),
      find_max_level_unmapped _ _ (by decide : scenario3Tree.blockKeys [0, 1] = none),
      find_max_level_unmapped _ _ (by decide : scenario3Tree.blockKeys [0, 2] = none)]
    rfl
  have h1 : find_max_level scenario3Tree [1] = 0 :=
    find_max_level_unmapped _ _ (by decide)
  have h2 : find_max_level scenario3Tree [2] = 1 := by
    rw [find_max_level_mapped scenario3Tree [2] ["c"] (by decide), hcpb, hrange]
    simp only [List.map_cons, List.map_nil, List.cons_append, List.nil_append]
    rw [find_max_level_unmapped _ _ (by decide : scenario3Tree.blockKeys [2, 0] = none),
      find_max_level_unmapped _ _ (by decide : scenario3Tree.blockKeys [2, 1] = none),
      find_max_level_unmapped _ _ (by decide : scenario3Tree.blockKeys [2, 2] = none)]
    rfl
  rw [find_max_level_mapped scenario3Tree [] ["1", "2"] (by decide), hcpb, hrange]
  simp only [List.map_cons, List.map_nil, List.nil_append]
  rw [h0, h1, h2]
  rfl

/-- Scenario 3 right siblings on the leaf level. -/
theorem scenario3_rs0 : scenario3Tree.right_sibling [0] = some [1] := by
  simp [BPlusTree.right_sibling, scenario3Tree, BPlusTree.children_per_block]

/-- Scenario 3 right sibling of the omitted middle child. -/
theorem scenario3_rs1 : scenario3Tree.right_sibling [1] = some [2] := by
  simp [BPlusTree.right_sibling, scenario3Tree, BPlusTree.children_per_block]

/-- Scenario 3: the last leaf has no right sibling. -/
theorem scenario3_rs2 : scenario3Tree.right_sibling [2] = none := by
  simp [BPlusTree.right_sibling, scenario3Tree, BPlusTree.children_per_block]

/-- Scenario 3: the middle child is structurally expected (omitted). -/
theorem scenario3_wo1 : scenario3Tree.was_omitted [1] = some true := by
  rw [BPlusTree.was_omitted, dif_neg (by decide : ¬(([1] : Addr) = []))]
  have hget : scenario3Tree.getItem [] = some (some ["1", "2"]) := by decide
  simp [hget]

/-- Scenario 3: the run started at the omitted middle child is empty. -/
theorem scenario3_fal1 : find_adjacent_leaves scenario3Tree [1] = .ok [] := by
  rw [find_adjacent_leaves]
  simp [(by decide : scenario3Tree.blockKeys [1] = none), scenario3_wo1]

/-- Scenario 3: the run from leaf 0 stops at the omitted middle child
without bridging to leaf 2. -/
theorem scenario3_fal0 : find_adjacent_leaves scenario3Tree [0] = .ok [[0]] := by
  rw [find_adjacent_leaves]
  simp only [(by decide : scenario3Tree.blockKeys [0] = some ["a"])]
  split
  · rename_i hrs
    exact absurd hrs (by rw [scenario3_rs0]; simp)
  · rename_i b hrs
    rw [scenario3_rs0] at hrs
    simp only [Option.some.injEq] at hrs
    subst hrs
    simp [scenario3_fal1]

/-- Scenario 3: the run from leaf 2 is that single leaf. -/
theorem scenario3_fal2 : find_adjacent_leaves scenario3Tree [2] = .ok [[2]] := by
  rw [find_adjacent_leaves]
  simp only [(by decide : scenario3Tree.blockKeys [2] = some ["c"])]
  split
  · rfl
  · rename_i b hrs
    exact absurd hrs (by rw [scenario3_rs2]; simp)

/-- The cross-edge loop stops on an exhausted index. -/
theorem cross_loop_none (t : BPlusTree) : cross_edges_loop t none = .ok [] := by
  rw [cross_edges_loop]
  split
  · rfl
  · rename_i idx hsk
    rw [skip_unmapped] at hsk
    simp at hsk

/-- Scenario 3: skipping from leaf 0 stays at leaf 0 (it is mapped). -/
theorem scenario3_skip0 : skip_unmapped scenario3Tree (some [0]) = some [0] := by
  rw [skip_unmapped]
  rw [if_neg (by decide : ¬(scenario3Tree.blockKeys [0] = none))]

/-- Scenario 3: skipping from the omitted middle child reaches leaf 2. -/
theorem scenario3_skip1 : skip_unmapped scenario3Tree (some [1]) = some [2] := by
  rw [skip_unmapped]
  rw [if_pos (by decide : scenario3Tree.blockKeys [1] = none), scenario3_rs1]
  rw [skip_unmapped]
  rw [if_neg (by decide : ¬(scenario3Tree.blockKeys [2] = none))]

/-- Scenario 3: the loop starting right of leaf 0 emits no edges. -/
theorem scenario3_loop1 : cross_edges_loop scenario3Tree (some [1]) = .ok [] := by
  rw [cross_edges_loop]
  split
  · rfl
  · rename_i idx hsk
    rw [scenario3_skip1] at hsk
    simp only [Option.some.injEq] at hsk
    subst hsk
    split
    · rename_i e hfal
      exact absurd hfal (by rw [scenario3_fal2]; simp)
    · rename_i leaves hfal
      rw [scenario3_fal2] at hfal
      simp only [Except.ok.injEq] at hfal
      subst hfal
      split
      · rename_i hl
        simp at hl
      · rename_i last hl
        simp only [List.getLast?_singleton, Option.some.injEq] at hl
        subst hl
        rw [scenario3_rs2]
        simp [cross_loop_none scenario3Tree, generate_cross_edge_range, pairwise]

/-- Scenario 3: the loop starting at leaf 0 emits no edges at all. -/
theorem scenario3_loop0 : cross_edges_loop scenario3Tree (some [0]) = .ok [] := by
  rw [cross_edges_loop]
  split
  · rfl
  · rename_i idx hsk
    rw [scenario3_skip0] at hsk
    simp only [Option.some.injEq] at hsk
    subst hsk
    split
    · rename_i e hfal
      exact absurd hfal (by rw [scenario3_fal0]; simp)
    · rename_i leaves hfal
      rw [scenario3_fal0] at hfal
      simp only [Except.ok.injEq] at hfal
      subst hfal
      split
      · rename_i hl
        simp at hl
      · rename_i last hl
        simp only [List.getLast?_singleton, Option.some.injEq] at hl
        subst hl
        rw [scenario3_rs0]
        simp [scenario3_loop1, generate_cross_edge_range, pairwise]

/-- Scenario 3 evaluated: no cross edge is generated, in particular none
bridging past the omitted middle child. -/
theorem scenario3_cross_edges : generate_cross_edges scenario3Tree = .ok [] := by
  rw [generate_cross_edges]
  simp only [BPlusTree.root_index, scenario3_max_level]
  exact scenario3_loop0

/-- Shifting iterated right siblings by one step. -/
theorem iterRS_shift (t : BPlusTree) (a b : Addr)
    (h : t.right_sibling a = some b) :
    ∀ k, iterRS t a (k + 1) = iterRS t b k := by
  intro k
  induction k with
  | zero => simp only [iterRS, h]
  | succ k ih => rw [iterRS, ih, iterRS]

/-- C1: every successful run of `find_adjacent_leaves` is a maximal
left-to-right scan: there is a stopping step `n` at which either no
right sibling exists or the first structurally expected but missing
(`was_omitted`) block is reached; the run consists exactly of the mapped
blocks encountered before step `n`, in order (so no cross edge, which
`generate_cross_edge_range` emits only between consecutive run members,
ever bridges the omitted block); and every unmapped block passed before
step `n` was not structurally expected.  In particular, in Scenario 3
(`keys_per_block = 2`, three leaf children, omitted middle child) no
cross edge is generated at all. -/
theorem c1_cross_edge_runs :
    (∀ (t : BPlusTree) (a : Addr) (leaves : List Addr),
      find_adjacent_leaves t a = .ok leaves →
      ∃ n,
        (iterRS t a n = none ∨
          ∃ o, iterRS t a n = some o ∧ t.blockKeys o = none ∧
            t.was_omitted o = some true) ∧
        leaves = (List.range n).filterMap (fun k =>
          (iterRS t a k).bind (fun b =>
            if (t.blockKeys b).isSome then some b else none)) ∧
        (∀ k, k < n → ∀ b, iterRS t a k = some b → t.blockKeys b = none →
          t.was_omitted b = some false)) ∧
    generate_cross_edges scenario3Tree = .ok [] := by
  refine ⟨?_, scenario3_cross_edges⟩
  intro t
  suffices H : ∀ (m : Nat) (a : Addr), t.rsMeasure a = m → ∀ leaves,
      find_adjacent_leaves t a = .ok leaves →
      ∃ n,
        (iterRS t a n = none ∨
          ∃ o, iterRS t a n = some o ∧ t.blockKeys o = none ∧
            t.was_omitted o = some true) ∧
        leaves = (List.range n).filterMap (fun k =>
          (iterRS t a k).bind (fun b =>
            if (t.blockKeys b).isSome then some b else none)) ∧
        (∀ k, k < n → ∀ b, iterRS t a k = some b → t.blockKeys b = none →
          t.was_omitted b = some false) by
    intro a leaves h
    exact H (t.rsMeasure a) a rfl leaves h
  intro m
  induction m using Nat.strong_induction_on with
  | _ m ih =>
      intro a hm leaves h
      rw [find_adjacent_leaves] at h
      split at h
      · rename_i ks hks
        split at h
        · rename_i hrs
          simp only [Except.ok.injEq] at h
          subst h
          refine ⟨1, Or.inl ?_, ?_, ?_⟩
          · rw [show iterRS t a 1 = t.right_sibling a from rfl, hrs]
          · rw [show List.range 1 = [0] from rfl, List.filterMap_cons]
            have hf0 : ((iterRS t a 0).bind (fun b =>
                if (t.blockKeys b).isSome then some b else none)) = some a := by
              rw [show iterRS t a 0 = some a from rfl]
              simp [hks]
            simp only [hf0, List.filterMap_nil]
          · intro k hk b hit hbk
            interval_cases k
            rw [show iterRS t a 0 = some a from rfl] at hit
            simp only [Option.some.injEq] at hit
            subst hit
            rw [hks] at hbk
            simp at hbk
        · rename_i b hrs
          split at h
          · simp at h
          · rename_i rest hrest
            simp only [Except.ok.injEq] at h
            subst h
            have hd := rs_dec t a
            rw [hrs] at hd
            simp only [omMeasure] at hd
            obtain ⟨n, hstop, hleaves, hbefore⟩ :=
              ih (t.rsMeasure b) (by omega) b rfl rest hrest
            refine ⟨n + 1, ?_, ?_, ?_⟩
            · rw [iterRS_shift t a b hrs n]
              exact hstop
            · rw [List.range_succ_eq_map, List.filterMap_cons]
              have hf0 : ((iterRS t a 0).bind (fun c =>
                  if (t.blockKeys c).isSome then some c else none)) = some a := by
                rw [show iterRS t a 0 = some a from rfl]
                simp [hks]
              simp only [hf0]
              rw [List.filterMap_map]
              congr 1
              rw [hleaves]
              apply List.filterMap_congr
              intro k _
              simp only [Function.comp_apply, iterRS_shift t a b hrs k]
            · intro k hk c hit hbk
              cases k with
              | zero =>
                  rw [show iterRS t a 0 = some a from rfl] at hit
                  simp only [Option.some.injEq] at hit
                  subst hit
                  rw [hks] at hbk
                  simp at hbk
              | succ k =>
                  rw [iterRS_shift t a b hrs k] at hit
                  exact hbefore k (by omega) c hit hbk
      · rename_i hks
        split at h
        · simp at h
        · rename_i hwo
          simp only [Except.ok.injEq] at h
          subst h
          exact ⟨0, Or.inr ⟨a, rfl, hks, hwo⟩, by simp, by omega⟩
        · rename_i hwo
          split at h
          · rename_i hrs
            simp only [Except.ok.injEq] at h
            subst h
            refine ⟨1, Or.inl ?_, ?_, ?_⟩
            · rw [show iterRS t a 1 = t.right_sibling a from rfl, hrs]
            · rw [show List.range 1 = [0] from rfl, List.filterMap_cons]
              have hf0 : ((iterRS t a 0).bind (fun b =>
                  if (t.blockKeys b).isSome then some b else none)) = none := by
                rw [show iterRS t a 0 = some a from rfl]
                simp [hks]
              simp only [hf0, List.filterMap_nil]
            · intro k hk b hit hbk
              interval_cases k
              rw [show iterRS t a 0 = some a from rfl] at hit
              simp only [Option.some.injEq] at hit
              subst hit
              exact hwo
          · rename_i b hrs
            have hd := rs_dec t a
            rw [hrs] at hd
            simp only [omMeasure] at hd
            obtain ⟨n, hstop, hleaves, hbefore⟩ :=
              ih (t.rsMeasure b) (by omega) b rfl leaves h
            refine ⟨n + 1, ?_, ?_, ?_⟩
            · rw [iterRS_shift t a b hrs n]
              exact hstop
            · rw [List.range_succ_eq_map, List.filterMap_cons]
              have hf0 : ((iterRS t a 0).bind (fun c =>
                  if (t.blockKeys c).isSome then some c else none)) = none := by
                rw [show iterRS t a 0 = some a from rfl]
                simp [hks]
              simp only [hf0]
              rw [List.filterMap_map]
              rw [hleaves]
              apply List.filterMap_congr
              intro k _
              simp only [Function.comp_apply, iterRS_shift t a b hrs k]
            · intro k hk c hit hbk
              cases k with
              | zero =>
                  rw [show iterRS t a 0 = some a from rfl] at hit
                  simp only [Option.some.injEq] at hit
                  subst hit
                  exact hwo
              | succ k =>
                  rw [iterRS_shift t a b hrs k] at hit
                  exact hbefore k (by omega) c hit hbk

/-- Mapping over an attached list forgets the membership proofs. -/
theorem attach_map_fn {β : Type} (l : List Addr) (g : Addr → β) :
    l.attach.map (fun x => g x.1) = l.map g := by
  rw [show (fun x : {x // x ∈ l} => g x.1) = g ∘ Subtype.val from rfl,
    ← List.map_map]
  congr 1
  simp

/-- Mapping over an enumerated attached list forgets the proofs. -/
theorem attach_enum_map {β : Type} (l : List Addr) (f : Nat → Addr → β) :
    l.attach.enum.map (fun p => f p.1 p.2.1) = l.enum.map (fun q => f q.1 q.2) := by
  have h1 : l.attach.enum.map (Prod.map id Subtype.val) = l.enum := by
    rw [← List.enum_map]
    congr 1
    simp
  calc l.attach.enum.map (fun p => f p.1 p.2.1)
      = (l.attach.enum.map (Prod.map id Subtype.val)).map (fun q => f q.1 q.2) := by
        rw [List.map_map]
        rfl
    _ = l.enum.map (fun q => f q.1 q.2) := by rw [h1]

/-- Proof-free unfolding of `pcEdgeList`. -/
theorem pcEdgeList_eq (t : BPlusTree) (a : Addr) :
    pcEdgeList t a = ((existingChildren t a).enum.map
      (fun q => (a, q.1, q.2) :: pcEdgeList t q.2)).flatten := by
  rw [pcEdgeList]
  congr 1
  exact attach_enum_map (existingChildren t a) (fun i c => (a, i, c) :: pcEdgeList t c)

/-- Proof-free unfolding of `generate_parent_child_edges`. -/
theorem gpce_eq (t : BPlusTree) (a : Addr) :
    generate_parent_child_edges t a = ((existingChildren t a).enum.map
      (fun q => renderPCEdge t (a, q.1, q.2) :: generate_parent_child_edges t q.2)).flatten := by
  rw [generate_parent_child_edges]
  congr 1
  exact attach_enum_map (existingChildren t a)
    (fun i c => PARENT_CHILD_EDGE_TEMPLATE (generate_node_name a)
      (CONNECTOR_NAME_TEMPLATE i) (generate_node_name c)
      (find_middle_port_name t) :: generate_parent_child_edges t c)

/-- Proof-free unfolding of `reachedBlocks`. -/
theorem reached_eq (t : BPlusTree) (a : Addr) :
    reachedBlocks t a =
      a :: ((existingChildren t a).map (fun c => reachedBlocks t c)).flatten := by
  rw [reachedBlocks]
  congr 2
  exact attach_map_fn (existingChildren t a) (fun c => reachedBlocks t c)

/-- Characterization of membership in `existingChildren`. -/
theorem mem_existingChildren_iff (t : BPlusTree) (a c : Addr) :
    c ∈ existingChildren t a ↔
      (∃ i, i < t.children_per_block ∧ c = a ++ [i]) ∧
        (t.blockKeys c).isSome = true := by
  simp only [existingChildren, BPlusTree.children, List.mem_filter,
    List.mem_map, List.mem_range]
  constructor
  · rintro ⟨⟨i, hi, rfl⟩, hs⟩
    exact ⟨⟨i, hi, rfl⟩, hs⟩
  · rintro ⟨⟨i, hi, rfl⟩, hs⟩
    exact ⟨⟨i, hi, rfl⟩, hs⟩

/-- The existing children of a block are pairwise distinct. -/
theorem nodup_existingChildren (t : BPlusTree) (a : Addr) :
    (existingChildren t a).Nodup := by
  apply List.Nodup.filter
  refine List.Nodup.map ?_ (List.nodup_range _)
  intro i j hij
  simpa using List.append_cancel_left hij

/-- Blocks deeper than every stored index have no existing children. -/
theorem existingChildren_deep (t : BPlusTree) (a : Addr)
    (h : t.maxAddrLen < a.length) : existingChildren t a = [] := by
  rw [existingChildren, List.filter_eq_nil]
  intro c hc
  simp only [BPlusTree.children, List.mem_map, List.mem_range] at hc
  obtain ⟨i, _, rfl⟩ := hc
  intro hs
  rcases hk : t.blockKeys (a ++ [i]) with _ | ks
  · rw [hk] at hs
    simp at hs
  · have := blockKeys_len_le t (a ++ [i]) ks hk
    simp only [List.length_append, List.length_singleton] at this
    omega

/-- One-step membership characterization for `reachedBlocks`. -/
theorem mem_reached_iff (t : BPlusTree) (a p : Addr) :
    p ∈ reachedBlocks t a ↔
      p = a ∨ ∃ c ∈ existingChildren t a, p ∈ reachedBlocks t c := by
  rw [reached_eq]
  simp [List.mem_cons, List.mem_flatten, List.mem_map]

/-- A mapped index is bounded by the maximal stored index length. -/
theorem child_len_le (t : BPlusTree) (c : Addr)
    (hsome : (t.blockKeys c).isSome = true) : c.length ≤ t.maxAddrLen := by
  rcases hk : t.blockKeys c with _ | ks
  · rw [hk] at hsome
    simp at hsome
  · exact blockKeys_len_le t c ks hk

/-- The traversal measure decreases when stepping to an existing child. -/
theorem measure_step (t : BPlusTree) (a c : Addr) (m : Nat)
    (hc : c ∈ existingChildren t a)
    (hm : t.maxAddrLen + 1 - a.length ≤ m + 1) :
    t.maxAddrLen + 1 - c.length ≤ m := by
  obtain ⟨hs, hl⟩ := existingChildren_mem t a c hc
  have := child_len_le t c hs
  omega

/-- Every block reached by the traversal extends the start index. -/
theorem reached_prefix (t : BPlusTree) : ∀ (m : Nat) (a : Addr),
    t.maxAddrLen + 1 - a.length ≤ m → ∀ x ∈ reachedBlocks t a,
      a.length ≤ x.length ∧ x.take a.length = a := by
  intro m
  induction m with
  | zero =>
      intro a hm x hx
      rw [mem_reached_iff, existingChildren_deep t a (by omega)] at hx
      simp at hx
      subst hx
      exact ⟨le_rfl, List.take_length x⟩
  | succ m ih =>
      intro a hm x hx
      rw [mem_reached_iff] at hx
      rcases hx with rfl | ⟨c, hc, hx⟩
      · exact ⟨le_rfl, List.take_length x⟩
      · have hm2 := measure_step t a c m hc hm
        obtain ⟨⟨i, hi, rfl⟩, _⟩ := (mem_existingChildren_iff t a c).mp hc
        obtain ⟨h1, h2⟩ := ih (a ++ [i]) hm2 x hx
        simp only [List.length_append, List.length_singleton] at h1 h2
        refine ⟨by omega, ?_⟩
        have h3 : (x.take (a.length + 1)).take a.length = x.take a.length := by
          rw [List.take_take]
          congr 1
          omega
        rw [← h3, h2]
        exact List.take_left a [i]

/-- The traversal visits each block at most once. -/
theorem reached_nodup (t : BPlusTree) : ∀ (m : Nat) (a : Addr),
    t.maxAddrLen + 1 - a.length ≤ m → (reachedBlocks t a).Nodup := by
  intro m
  induction m with
  | zero =>
      intro a hm
      rw [reached_eq, existingChildren_deep t a (by omega)]
      simp
  | succ m ih =>
      intro a hm
      rw [reached_eq, List.nodup_cons]
      constructor
      · intro hmem
        simp only [List.mem_flatten, List.mem_map] at hmem
        obtain ⟨l, ⟨c, hc, rfl⟩, hal⟩ := hmem
        have hm2 := measure_step t a c m hc hm
        obtain ⟨h1, _⟩ := reached_prefix t m c hm2 a hal
        obtain ⟨⟨i, hi, rfl⟩, _⟩ := (mem_existingChildren_iff t a c).mp hc
        simp only [List.length_append, List.length_singleton] at h1
        omega
      · rw [List.nodup_flatten]
        constructor
        · intro s hs
          simp only [List.mem_map] at hs
          obtain ⟨c, hc, rfl⟩ := hs
          exact ih c (measure_step t a c m hc hm)
        · rw [List.pairwise_map]
          refine List.Pairwise.imp_of_mem ?_ (nodup_existingChildren t a)
          intro c c' hcmem hcmem' hne x hx hx'
          obtain ⟨_, h2⟩ := reached_prefix t m c (measure_step t a c m hcmem hm) x hx
          obtain ⟨_, h2'⟩ :=
            reached_prefix t m c' (measure_step t a c' m hcmem' hm) x hx'
          obtain ⟨⟨i, hi, rfl⟩, _⟩ := (mem_existingChildren_iff t a c).mp hcmem
          obtain ⟨⟨j, hj, rfl⟩, _⟩ := (mem_existingChildren_iff t a c').mp hcmem'
          simp only [List.length_append, List.length_singleton] at h2 h2'
          rw [h2] at h2'
          exact hne h2'

/-- Membership in the structured edge list: exactly the triples of a
reached parent, a dense position and the existing child there. -/
theorem mem_pcEdgeList (t : BPlusTree) : ∀ (m : Nat) (a : Addr),
    t.maxAddrLen + 1 - a.length ≤ m → ∀ p i c,
      ((p, i, c) ∈ pcEdgeList t a ↔
        p ∈ reachedBlocks t a ∧ (existingChildren t p)[i]? = some c) := by
  intro m
  induction m with
  | zero =>
      intro a hm p i c
      have hdeep := existingChildren_deep t a (by omega)
      rw [pcEdgeList_eq, hdeep]
      constructor
      · intro hx
        simp at hx
      · rintro ⟨hp, hg⟩
        rw [mem_reached_iff t a p, hdeep] at hp
        simp at hp
        subst hp
        rw [hdeep] at hg
        simp at hg
  | succ m ih =>
      intro a hm p i c
      rw [pcEdgeList_eq, List.mem_flatten]
      constructor
      · rintro ⟨l, hl, hx⟩
        simp only [List.mem_map] at hl
        obtain ⟨⟨j, cj⟩, hq, rfl⟩ := hl
        rcases List.mem_cons.mp hx with heq | hrec
        · have h3 : p = a ∧ i = j ∧ c = cj := by
            simpa [Prod.ext_iff] using heq
          refine ⟨?_, ?_⟩
          · rw [h3.1]
            exact (mem_reached_iff t a a).mpr (Or.inl rfl)
          · rw [h3.1, h3.2.1, h3.2.2]
            exact List.mk_mem_enum_iff_getElem?.mp hq
        · have hcj : cj ∈ existingChildren t a := List.snd_mem_of_mem_enum hq
          obtain ⟨hp, hg⟩ := (ih cj (measure_step t a cj m hcj hm) p i c).mp hrec
          exact ⟨(mem_reached_iff t a p).mpr (Or.inr ⟨cj, hcj, hp⟩), hg⟩
      · rintro ⟨hp, hg⟩
        rw [mem_reached_iff] at hp
        rcases hp with rfl | ⟨c', hc', hp⟩
        · refine ⟨(p, i, c) :: pcEdgeList t c, ?_, List.mem_cons_self _ _⟩
          simp only [List.mem_map]
          exact ⟨(i, c), List.mk_mem_enum_iff_getElem?.mpr hg, rfl⟩
        · have hx : (p, i, c) ∈ pcEdgeList t c' :=
            (ih c' (measure_step t a c' m hc' hm) p i c).mpr ⟨hp, hg⟩
          obtain ⟨j, hjg⟩ := List.mem_iff_getElem?.mp hc'
          refine ⟨(a, j, c') :: pcEdgeList t c', ?_, List.mem_cons_of_mem _ hx⟩
          simp only [List.mem_map]
          exact ⟨(j, c'), List.mk_mem_enum_iff_getElem?.mpr hjg, rfl⟩

/-- A successful positional lookup yields a member of the list. -/
theorem mem_of_getElemQ (l : List Addr) (i : Nat) (c : Addr)
    (h : l[i]? = some c) : c ∈ l := by
  obtain ⟨hl, he⟩ := List.getElem?_eq_some.mp h
  exact he ▸ List.getElem_mem hl

/-- A parent-child edge never points back up to the parent of the
subtree it was generated in. -/
theorem pc_parent_not_self (t : BPlusTree) (m : Nat) (a cj : Addr) (j : Nat)
    (c2 : Addr) (hm2 : t.maxAddrLen + 1 - cj.length ≤ m)
    (hcj : cj ∈ existingChildren t a)
    (hmem : (a, j, c2) ∈ pcEdgeList t cj) : False := by
  obtain ⟨hp, _⟩ := (mem_pcEdgeList t m cj hm2 a j c2).mp hmem
  obtain ⟨h1, _⟩ := reached_prefix t m cj hm2 a hp
  obtain ⟨⟨i0, _, rfl⟩, _⟩ := (mem_existingChildren_iff t a cj).mp hcj
  simp only [List.length_append, List.length_singleton] at h1
  omega

/-- No parent-child edge triple is produced twice. -/
theorem pcEdgeList_nodup (t : BPlusTree) : ∀ (m : Nat) (a : Addr),
    t.maxAddrLen + 1 - a.length ≤ m → (pcEdgeList t a).Nodup := by
  intro m
  induction m with
  | zero =>
      intro a hm
      rw [pcEdgeList_eq, existingChildren_deep t a (by omega)]
      simp
  | succ m ih =>
      intro a hm
      rw [pcEdgeList_eq, List.nodup_flatten]
      constructor
      · intro s hs
        simp only [List.mem_map] at hs
        obtain ⟨⟨j, cj⟩, hq, rfl⟩ := hs
        have hcj : cj ∈ existingChildren t a := List.snd_mem_of_mem_enum hq
        rw [List.nodup_cons]
        exact ⟨fun hmem => pc_parent_not_self t m a cj j cj
            (measure_step t a cj m hcj hm) hcj hmem,
          ih cj (measure_step t a cj m hcj hm)⟩
      · rw [List.pairwise_map]
        have henum : (existingChildren t a).enum.Nodup :=
          List.Nodup.of_map _ (List.nodup_enum_map_fst (existingChildren t a))
        refine List.Pairwise.imp_of_mem ?_ henum
        intro q q' hqmem hq'mem hne x hx hx'
        obtain ⟨j, cj⟩ := q
        obtain ⟨j', cj'⟩ := q'
        have hcj : cj ∈ existingChildren t a := List.snd_mem_of_mem_enum hqmem
        have hcj' : cj' ∈ existingChildren t a := List.snd_mem_of_mem_enum hq'mem
        rcases List.mem_cons.mp hx with hxe | hxr
        · rcases List.mem_cons.mp hx' with hx'e | hx'r
          · rw [hxe] at hx'e
            simp only [Prod.mk.injEq] at hx'e
            exact hne (Prod.ext_iff.mpr ⟨hx'e.2.1, hx'e.2.2⟩)
          · rw [hxe] at hx'r
            exact pc_parent_not_self t m a cj' j cj
              (measure_step t a cj' m hcj' hm) hcj' hx'r
        · rcases List.mem_cons.mp hx' with hx'e | hx'r
          · rw [hx'e] at hxr
            exact pc_parent_not_self t m a cj j' cj'
              (measure_step t a cj m hcj hm) hcj hxr
          · obtain ⟨p0, i0, c0⟩ := x
            obtain ⟨hp1, _⟩ := (mem_pcEdgeList t m cj
              (measure_step t a cj m hcj hm) p0 i0 c0).mp hxr
            obtain ⟨hp2, _⟩ := (mem_pcEdgeList t m cj'
              (measure_step t a cj' m hcj' hm) p0 i0 c0).mp hx'r
            obtain ⟨_, ht1⟩ := reached_prefix t m cj
              (measure_step t a cj m hcj hm) p0 hp1
            obtain ⟨_, ht2⟩ := reached_prefix t m cj'
              (measure_step t a cj' m hcj' hm) p0 hp2
            obtain ⟨⟨i1, _, hceq⟩, _⟩ := (mem_existingChildren_iff t a cj).mp hcj
            obtain ⟨⟨i2, _, hceq'⟩, _⟩ := (mem_existingChildren_iff t a cj').mp hcj'
            have hlen1 : cj.length = a.length + 1 := by rw [hceq]; simp
            have hlen2 : cj'.length = a.length + 1 := by rw [hceq']; simp
            rw [hlen1] at ht1
            rw [hlen2] at ht2
            have hcc : cj = cj' := by rw [← ht1, ← ht2]
            subst hcc
            have hg1 := List.mk_mem_enum_iff_getElem?.mp hqmem
            have hg2 := List.mk_mem_enum_iff_getElem?.mp hq'mem
            have hjlt : j < (existingChildren t a).length :=
              (List.getElem?_eq_some.mp hg1).1
            have hjj : j = j' := List.getElem?_inj hjlt
              (nodup_existingChildren t a) (by rw [hg1, hg2])
            subst hjj
            exact hne rfl

/-- The emitted edge strings are the rendered structured edges, in the
same order. -/
theorem gpce_render (t : BPlusTree) : ∀ (m : Nat) (a : Addr),
    t.maxAddrLen + 1 - a.length ≤ m →
      generate_parent_child_edges t a = (pcEdgeList t a).map (renderPCEdge t) := by
  intro m
  induction m with
  | zero =>
      intro a hm
      rw [gpce_eq, pcEdgeList_eq, existingChildren_deep t a (by omega)]
      simp
  | succ m ih =>
      intro a hm
      rw [gpce_eq, pcEdgeList_eq, List.map_flatten, List.map_map]
      congr 1
      apply List.map_congr_left
      intro q hq
      obtain ⟨j, cj⟩ := q
      have hcj : cj ∈ existingChildren t a := List.snd_mem_of_mem_enum hq
      simp only [Function.comp_apply, List.map_cons]
      congr 1
      exact ih cj (measure_step t a cj m hcj hm)

/-- C2: starting at the root, the parent-child edge traversal emits
exactly one edge per (reached parent, dense position, existing child)
triple — the count of a triple in the structured edge list is one when
the parent is reached and the child sits at that position among the
parent's *existing* children (densely renumbered), and zero otherwise;
the emitted strings are exactly those triples rendered from the parent's
dense connector port to the child's middle port, in order; the middle
port is the key cell `keys_per_block / 2` for odd capacity and the
connector cell `(keys_per_block + 1) / 2` for even capacity; and no edge
ever targets an omitted (unmapped) child. -/
theorem c2_parent_child_edges (t : BPlusTree) (p : Addr) (i : Nat) (c : Addr) :
    @List.count (Addr × Nat × Addr) instBEqOfDecidableEq (p, i, c)
        (pcEdgeList t t.root_index) =
      (if p ∈ reachedBlocks t t.root_index ∧
          (existingChildren t p)[i]? = some c then 1 else 0) ∧
    generate_parent_child_edges t t.root_index =
      (pcEdgeList t t.root_index).map (renderPCEdge t) ∧
    find_middle_port_name t =
      (if t.keys_per_block % 2 ≠ 0 then
        KEY_NAME_TEMPLATE (t.keys_per_block / 2)
      else CONNECTOR_NAME_TEMPLATE ((t.keys_per_block + 1) / 2)) ∧
    (∀ p2 i2 c2, (p2, i2, c2) ∈ pcEdgeList t t.root_index →
      (t.blockKeys c2).isSome = true) := by
  have hmsr : t.maxAddrLen + 1 - (t.root_index).length ≤ t.maxAddrLen + 1 := by
    simp [BPlusTree.root_index]
  refine ⟨?_, gpce_render t (t.maxAddrLen + 1) t.root_index hmsr, rfl, ?_⟩
  · by_cases hcond : p ∈ reachedBlocks t t.root_index ∧
        (existingChildren t p)[i]? = some c
    · rw [if_pos hcond]
      exact List.count_eq_one_of_mem
        (pcEdgeList_nodup t (t.maxAddrLen + 1) _ hmsr)
        ((mem_pcEdgeList t (t.maxAddrLen + 1) _ hmsr p i c).mpr hcond)
    · rw [if_neg hcond]
      have hlaw : @LawfulBEq (Addr × Nat × Addr) instBEqOfDecidableEq :=
        instLawfulBEq
      refine (@List.count_eq_zero _ instBEqOfDecidableEq hlaw (p, i, c)
        (pcEdgeList t t.root_index)).mpr ?_
      intro hmem2
      exact hcond ((mem_pcEdgeList t (t.maxAddrLen + 1) _ hmsr p i c).mp hmem2)
  · intro p2 i2 c2 hmem2
    obtain ⟨_, hg⟩ :=
      (mem_pcEdgeList t (t.maxAddrLen + 1) _ hmsr p2 i2 c2).mp hmem2
    have hc2 : c2 ∈ existingChildren t p2 := mem_of_getElemQ _ _ _ hg
    exact ((mem_existingChildren_iff t p2 c2).mp hc2).2

/-- C2 witness: in the scenario tree the root's 0th dense connector
leads to leaf `[0]`, and exactly one such edge exists. -/
theorem c2_witness :
    @List.count (Addr × Nat × Addr) instBEqOfDecidableEq ([], 0, [0])
      (pcEdgeList scenario3Tree scenario3Tree.root_index) = 1 := by
  have h := (c2_parent_child_edges scenario3Tree [] 0 [0]).1
  rw [h]
  rw [if_pos ?_]
  constructor
  · rw [mem_reached_iff]
    exact Or.inl rfl
  · decide

/-- C1 witness: the run starting at leaf `[0]` of the scenario tree
instantiates the characterization (its stop is the omitted middle
child). -/
theorem c1_witness :
    ∃ n,
      (iterRS scenario3Tree [0] n = none ∨
        ∃ o, iterRS scenario3Tree [0] n = some o ∧
          scenario3Tree.blockKeys o = none ∧
          scenario3Tree.was_omitted o = some true) ∧
      [[0]] = (List.range n).filterMap (fun k =>
        (iterRS scenario3Tree [0] k).bind (fun b =>
          if (scenario3Tree.blockKeys b).isSome then some b else none)) ∧
      (∀ k, k < n → ∀ b, iterRS scenario3Tree [0] k = some b →
        scenario3Tree.blockKeys b = none →
        scenario3Tree.was_omitted b = some false) :=
  c1_cross_edge_runs.1 scenario3Tree [0] [[0]] scenario3_fal0
